import Mathlib

/-!
Verification of the proseg v1.1.7 voxel sampler and polygon extractor.

Shallow embedding of:
- `src/sampler/polygons.rs` (boundary edge collection, ring tracing,
  antialiasing and simplification passes),
- `src/sampler/connectivity.rs` (local articulation-point connectivity check),
- `src/main.rs` (outer multi-resolution iteration schedule).

Machine integers (`i32`, `usize`, `u32`) are modelled as `ℤ`/`ℕ`; the points
where overflow or panics matter are handled with explicit hypotheses or
`Option` results and are noted at the definitions.
-/

namespace Proseg

/-- A planar corner-lattice point, the Rust `(i32, i32)` tuples of
`polygons.rs`. -/
abbrev Pt : Type := ℤ × ℤ

/-! ### `simplify_polygon` (src/src/sampler/polygons.rs lines 90-114) -/

/-- The `tuple_windows::<(_,_,_)>` loop body of `simplify_polygon`:
for each consecutive triple `(u, v, w)`, vertex `v` is skipped when
`δi_v == δi_w && δj_v == δj_w`, i.e. the two consecutive edge vectors are
equal, and pushed otherwise. -/
def simplifyKeep : List Pt → List Pt
  | u :: v :: w :: rest =>
      (if v.1 - u.1 = w.1 - v.1 ∧ v.2 - u.2 = w.2 - v.2 then [] else [v])
        ++ simplifyKeep (v :: w :: rest)
  | _ => []

/-- Translation of `simplify_polygon`: polygons of length `≤ 3` are returned
unchanged; otherwise the first point is pushed, interior points are filtered
by the window loop, and the first point is pushed again at the end. -/
def simplify_polygon (polygon : List Pt) : List Pt :=
  if polygon.length ≤ 3 then polygon
  else
    match polygon with
    | [] => []
    | p0 :: _ => (p0 :: simplifyKeep polygon) ++ [p0]

/-! ### `antialias_polygon` (src/src/sampler/polygons.rs lines 50-85) -/

/-- The stair-step test of `antialias_polygon`:
`((δi_v == 0) != (δi_w == 0)) && ((δj_v == 0) != (δj_w == 0))`. -/
def stairStep (u v w : Pt) : Bool :=
  (decide (v.1 - u.1 = 0) != decide (w.1 - v.1 = 0)) &&
  (decide (v.2 - u.2 = 0) != decide (w.2 - v.2 = 0))

/-- Vertex `v` of the window `(p1, u, v, w, p2)` is dropped exactly when
`(u, v, w)` is a stair step and both Manhattan-distance checks
`|w - p1|₁` and `|u - p2|₁` equal 3 (the code pushes `v` when either
check differs from 3). -/
def aaDrop (p1 u v w p2 : Pt) : Bool :=
  stairStep u v w &&
  ((w.1 - p1.1).natAbs + (w.2 - p1.2).natAbs == 3) &&
  ((u.1 - p2.1).natAbs + (u.2 - p2.2).natAbs == 3)

/-- The `tuple_windows::<(_,_,_,_,_)>` loop of `antialias_polygon`: the middle
vertex of each 5-window is pushed unless `aaDrop` holds. -/
def aaLoop : List Pt → List Pt
  | p1 :: u :: v :: w :: p2 :: rest =>
      (if aaDrop p1 u v w p2 then [] else [v]) ++ aaLoop (u :: v :: w :: p2 :: rest)
  | _ => []

/-- Translation of `antialias_polygon`: polygons of length `≤ 5` are returned
unchanged; otherwise the output is the first two points, the filtered middle
vertices, and the last two points. -/
def antialias_polygon (polygon : List Pt) : List Pt :=
  if polygon.length ≤ 5 then polygon
  else polygon.take 2 ++ aaLoop polygon ++ polygon.drop (polygon.length - 2)

/-! ### Ring hypotheses -/

/-- Consecutive vertices are one unit apart (Manhattan distance 1). -/
def UnitSteps : List Pt → Prop
  | u :: v :: rest =>
      (v.1 - u.1).natAbs + (v.2 - u.2).natAbs = 1 ∧ UnitSteps (v :: rest)
  | _ => True

/-- The four axis-aligned unit step vectors. -/
def unitDirs : List Pt := [(1, 0), (-1, 0), (0, 1), (0, -1)]

/-- No three consecutive vertices form a stair step. -/
def NoStair : List Pt → Prop
  | u :: v :: w :: rest => stairStep u v w = false ∧ NoStair (v :: w :: rest)
  | _ => True

lemma unit_step_mem_unitDirs {a b : ℤ} (h : a.natAbs + b.natAbs = 1) :
    ((a, b) : Pt) ∈ unitDirs := by
  simp only [unitDirs, List.mem_cons, List.mem_singleton, Prod.mk.injEq]
  omega

/-! ### Idempotence of `simplify_polygon`

After one pass, consecutive surviving vertices are joined by maximal straight
runs of the original unit steps, and consecutive runs point in different axis
directions; `GoodChain d q` captures this shape (first delta is a positive
multiple of `d`, later deltas are positive multiples of pairwise-alternating
unit directions). -/

def GoodChain (d : Pt) : List Pt → Prop
  | a :: b :: rest =>
      (∃ m : ℕ, 1 ≤ m ∧ b.1 - a.1 = (m : ℤ) * d.1 ∧ b.2 - a.2 = (m : ℤ) * d.2) ∧
      ∃ e, e ∈ unitDirs ∧ e ≠ d ∧ GoodChain e (b :: rest)
  | _ => True

lemma goodChain_shift {d : Pt} {b : Pt} {t : List Pt} (h : GoodChain d (b :: t)) (a : Pt)
    (h1 : b.1 - a.1 = d.1) (h2 : b.2 - a.2 = d.2) : GoodChain d (a :: t) := by
  cases t with
  | nil => trivial
  | cons c t' =>
      obtain ⟨⟨m, hm, hm1, hm2⟩, htail⟩ := h
      refine ⟨⟨m + 1, by omega, ?_, ?_⟩, htail⟩
      · push_cast; nlinarith
      · push_cast; nlinarith

lemma unit_mul_ne {d e : Pt} (hd : d ∈ unitDirs) (he : e ∈ unitDirs) (hde : e ≠ d)
    {m n : ℕ} (hm : 1 ≤ m) (hn : 1 ≤ n) :
    ¬((m : ℤ) * d.1 = (n : ℤ) * e.1 ∧ (m : ℤ) * d.2 = (n : ℤ) * e.2) := by
  fin_cases hd <;> fin_cases he <;> simp_all <;> omega

theorem keepInv : ∀ (rest : List Pt) (u v : Pt), UnitSteps (u :: v :: rest) →
    GoodChain (v.1 - u.1, v.2 - u.2)
      (u :: (simplifyKeep (u :: v :: rest) ++ [List.getLastD rest v]))
  | [], u, v, _ => by
      simp only [simplifyKeep, List.getLastD, List.nil_append, GoodChain]
      refine ⟨⟨1, le_refl 1, by push_cast; ring, by push_cast; ring⟩, ?_⟩
      by_cases hd : ((v.1 - u.1, v.2 - u.2) : Pt) = (1, 0)
      · refine ⟨(-1, 0), by simp [unitDirs], ?_, trivial⟩
        rw [hd]; decide
      · exact ⟨(1, 0), by simp [unitDirs], fun hcon => hd hcon.symm, trivial⟩
  | w :: rest', u, v, h => by
      obtain ⟨h1, h2⟩ := h
      have h2' : (w.1 - v.1).natAbs + (w.2 - v.2).natAbs = 1 := h2.1
      have ih := keepInv rest' v w h2
      simp only [simplifyKeep, List.getLastD_cons]
      by_cases hc : v.1 - u.1 = w.1 - v.1 ∧ v.2 - u.2 = w.2 - v.2
      · rw [if_pos hc]
        simp only [List.nil_append]
        have hrw : ((w.1 - v.1, w.2 - v.2) : Pt) = (v.1 - u.1, v.2 - u.2) := by
          rw [Prod.mk.injEq]; exact ⟨hc.1.symm, hc.2.symm⟩
        rw [hrw] at ih
        exact goodChain_shift ih u rfl rfl
      · rw [if_neg hc]
        refine ⟨⟨1, le_refl 1, by push_cast; ring, by push_cast; ring⟩, ?_⟩
        refine ⟨(w.1 - v.1, w.2 - v.2), unit_step_mem_unitDirs h2', ?_, ih⟩
        intro hcon
        rw [Prod.mk.injEq] at hcon
        exact hc ⟨hcon.1.symm, hcon.2.symm⟩

theorem goodChain_keep : ∀ (q : List Pt) (d : Pt), d ∈ unitDirs → GoodChain d q →
    simplifyKeep q = q.tail.dropLast
  | [], _, _, _ => rfl
  | [_], _, _, _ => rfl
  | [_, _], _, _, _ => rfl
  | a :: b :: c :: t, d, hd, hgc => by
      obtain ⟨⟨m, hm, hm1, hm2⟩, e, he, hed, hgc1⟩ := hgc
      obtain ⟨⟨n, hn, hn1, hn2⟩, -⟩ := id hgc1
      have hcond : ¬(b.1 - a.1 = c.1 - b.1 ∧ b.2 - a.2 = c.2 - b.2) := by
        rw [hm1, hm2, hn1, hn2]
        exact unit_mul_ne hd he hed hm hn
      have ih := goodChain_keep (b :: c :: t) e he hgc1
      simp only [simplifyKeep, if_neg hcond, ih]
      simp [List.dropLast]

lemma simplifyKeep_sublist : ∀ l : List Pt, List.Sublist (simplifyKeep l) l.tail.dropLast
  | [] => by simp [simplifyKeep]
  | [_] => by simp [simplifyKeep]
  | [_, _] => by simp [simplifyKeep]
  | a :: b :: c :: t => by
      have ih := simplifyKeep_sublist (b :: c :: t)
      simp only [List.tail_cons] at ih ⊢
      have htgt : (b :: c :: t).dropLast = b :: (c :: t).dropLast := by
        simp [List.dropLast]
      simp only [simplifyKeep]
      by_cases hc : b.1 - a.1 = c.1 - b.1 ∧ b.2 - a.2 = c.2 - b.2
      · rw [if_pos hc, List.nil_append, htgt]
        exact ih.cons b
      · rw [if_neg hc, List.cons_append, List.nil_append, htgt]
        exact ih.cons₂ b

lemma simplify_short {q : List Pt} (hq : q.length ≤ 3) : simplify_polygon q = q := by
  simp only [simplify_polygon, if_pos hq]

/-- **C6**: `simplify_polygon` is idempotent on closed unit-step rings: a second
application removes no further vertex, and the output is a subsequence of the
input (only vertices whose two incident edge vectors are equal — hence
collinear — are removed). -/
theorem simplify_polygon_idempotent (p : List Pt)
    (hclosed : p.head? = p.getLast?) (hunit : UnitSteps p) :
    simplify_polygon (simplify_polygon p) = simplify_polygon p ∧
    List.Sublist (simplify_polygon p) p := by
  by_cases hlen : p.length ≤ 3
  · rw [simplify_short hlen]
    exact ⟨simplify_short hlen, List.Sublist.refl p⟩
  · obtain ⟨p0, p1, rest, rfl⟩ : ∃ p0 p1 rest, p = p0 :: p1 :: rest := by
      cases p with
      | nil => exact absurd (by simp) hlen
      | cons p0 t =>
        cases t with
        | nil => exact absurd (by simp) hlen
        | cons p1 rest => exact ⟨p0, p1, rest, rfl⟩
    · have hlast0 : (p1 :: rest).getLast? = some p0 := by
        rw [← List.getLast?_cons_cons (a := p0)]
        exact hclosed.symm.trans (by simp)
      have hlastD : rest.getLastD p1 = p0 := by
        have hcons := List.getLast?_cons (a := p1) (l := rest)
        rw [hcons] at hlast0
        rw [List.getLastD_eq_getLast?]
        exact Option.some_injective _ hlast0
      have hq : simplify_polygon (p0 :: p1 :: rest) =
          p0 :: (simplifyKeep (p0 :: p1 :: rest) ++ [p0]) := by
        simp only [simplify_polygon, if_neg hlen, List.cons_append]
      have hchain := keepInv rest p0 p1 hunit
      rw [hlastD] at hchain
      have hd0 : ((p1.1 - p0.1, p1.2 - p0.2) : Pt) ∈ unitDirs :=
        unit_step_mem_unitDirs hunit.1
      constructor
      · -- idempotence
        rw [hq]
        by_cases hql : (p0 :: (simplifyKeep (p0 :: p1 :: rest) ++ [p0])).length ≤ 3
        · exact simplify_short hql
        · have hkeep := goodChain_keep _ _ hd0 hchain
          simp only [simplify_polygon, if_neg hql, hkeep, List.tail_cons,
            List.dropLast_concat, List.cons_append]
      · -- the output is a subsequence of the input
        rw [hq]
        have hsub := simplifyKeep_sublist (p0 :: p1 :: rest)
        simp only [List.tail_cons] at hsub
        have hlastEq : (p1 :: rest).getLast (by simp) = p0 := by
          rw [List.getLast?_eq_getLast (p1 :: rest) (by simp)] at hlast0
          exact Option.some_injective _ hlast0
        have hdecomp : (p1 :: rest).dropLast ++ [p0] = p1 :: rest := by
          conv_rhs => rw [← List.dropLast_append_getLast (l := p1 :: rest) (by simp)]
          rw [hlastEq]
        have hstep : List.Sublist (p0 :: (simplifyKeep (p0 :: p1 :: rest) ++ [p0]))
            (p0 :: ((p1 :: rest).dropLast ++ [p0])) :=
          List.Sublist.cons₂ p0 (List.Sublist.append_right hsub [p0])
        rw [hdecomp] at hstep
        exact hstep

/-! ### Antialiasing stability -/

lemma aaLoop_noStair : ∀ l : List Pt, NoStair l →
    aaLoop l = (l.drop 2).take (l.length - 4)
  | [], _ => rfl
  | [_], _ => rfl
  | [_, _], _ => rfl
  | [_, _, _], _ => rfl
  | [_, _, _, _], _ => rfl
  | p1 :: u :: v :: w :: p2 :: rest, h => by
      obtain ⟨-, h2⟩ := h
      have hstair : stairStep u v w = false := h2.1
      have hdrop : aaDrop p1 u v w p2 = false := by
        simp [aaDrop, hstair]
      have ih := aaLoop_noStair (u :: v :: w :: p2 :: rest) h2
      simp only [aaLoop, hdrop, if_false, List.cons_append, List.nil_append, ih]
      simp only [List.drop_succ_cons, List.drop_zero, List.length_cons]
      have harith : rest.length + 1 + 1 + 1 + 1 + 1 - 4 = rest.length + 1 := by omega
      have harith2 : rest.length + 1 + 1 + 1 + 1 - 4 = rest.length := by omega
      rw [harith, harith2]
      simp [List.drop, List.take]

/-- **C7**: `antialias_polygon` is the identity on stair-free rings, and on a
ring containing a single-unit staircase notch — where both Manhattan-distance
window checks measure exactly 3 — the interior notch vertex (here `(1, 1)`)
is dropped from the output. -/
theorem antialias_polygon_claims :
    (∀ p : List Pt, NoStair p → antialias_polygon p = p) ∧
    (aaDrop (3, 1) (2, 1) (1, 1) (1, 2) (0, 2) = true ∧
      antialias_polygon
        [(0,0),(1,0),(2,0),(3,0),(4,0),(4,1),(3,1),(2,1),(1,1),(1,2),(0,2),(0,1),(0,0)] =
        [(0,0),(1,0),(2,0),(3,0),(4,0),(4,1),(3,1),(2,1),(1,2),(0,2),(0,1),(0,0)]) := by
  constructor
  · intro p hp
    by_cases hlen : p.length ≤ 5
    · simp only [antialias_polygon, if_pos hlen]
    · simp only [antialias_polygon, if_neg hlen]
      rw [aaLoop_noStair p hp]
      have hdd : p.drop (p.length - 2) = (p.drop 2).drop (p.length - 4) := by
        rw [List.drop_drop]
        congr 1
        omega
      rw [hdd, List.append_assoc, List.take_append_drop, List.take_append_drop]
  · exact ⟨by decide, by decide⟩

/-! ### Outer iteration schedule (src/src/main.rs lines 355-357, 595-670, 753-824) -/

/-- One observable action of `main`'s outer loop: a `double_resolution` call,
or a `run_hexbin_sampler` call performing `niter` sampling iterations
(`record` is whether the `UncertaintyTracker` is passed, i.e. whether the
iterations are recorded samples). -/
inductive SamplerEvent : Type
  | doubleResolution : SamplerEvent
  | run (niter : ℕ) (record : Bool) : SamplerEvent
deriving DecidableEq

/-- `usize` subtraction, which panics on underflow (modelled as `none`). -/
def checkedSub (a b : ℕ) : Option ℕ := if b ≤ a then some (a - b) else none

/-- The sequence of sampler calls issued by `main` (lines 595-670): when the
schedule has more than one entry, a run of `schedule[0]` iterations, then for
each middle entry a resolution doubling followed by a run, then a final
doubling; in all cases the last entry is split into `rem = last -
recorded_samples` unrecorded iterations plus `recorded_samples` recorded
ones. -/
def mainEvents (schedule : List ℕ) (recordedSamples rem : ℕ) : List SamplerEvent :=
  (if 1 < schedule.length then
      SamplerEvent.run (schedule.headD 0) false ::
        ((schedule.drop 1).dropLast.flatMap
          (fun niter => [SamplerEvent.doubleResolution, SamplerEvent.run niter false])) ++
        [SamplerEvent.doubleResolution]
    else []) ++
  [SamplerEvent.run rem false, SamplerEvent.run recordedSamples true]

/-- The outer schedule logic of `main`: `none` models a panic — an empty
schedule (`schedule.last().unwrap()`), the guard
`recorded_samples > *schedule.last()` at line 355, or `usize` underflow in
`*schedule.last() - recorded_samples` at line 646. -/
def mainSchedule (schedule : List ℕ) (recordedSamples : ℕ) : Option (List SamplerEvent) :=
  match schedule.getLast? with
  | none => none
  | some last =>
      if recordedSamples > last then none
      else
        match checkedSub last recordedSamples with
        | none => none
        | some rem => some (mainEvents schedule recordedSamples rem)

def isDouble : SamplerEvent → Bool
  | SamplerEvent.doubleResolution => true
  | _ => false

def runLength : SamplerEvent → Option ℕ
  | SamplerEvent.run n _ => some n
  | _ => none

lemma isDouble_double : isDouble SamplerEvent.doubleResolution = true := rfl

lemma isDouble_run (n : ℕ) (b : Bool) : isDouble (SamplerEvent.run n b) = false := rfl

lemma runLength_double : runLength SamplerEvent.doubleResolution = none := rfl

lemma runLength_run (n : ℕ) (b : Bool) : runLength (SamplerEvent.run n b) = some n := rfl

lemma flat_countP (mid : List ℕ) :
    (mid.flatMap fun n => [SamplerEvent.doubleResolution, SamplerEvent.run n false]).countP
      (fun e => isDouble e) = mid.length := by
  induction mid with
  | nil => rfl
  | cons a t ih =>
      simp only [List.flatMap_cons, List.countP_append, ih, List.countP_cons,
        List.countP_nil, isDouble_double, isDouble_run, List.length_cons]
      simp
      omega

lemma flat_runs (mid : List ℕ) :
    (mid.flatMap fun n => [SamplerEvent.doubleResolution, SamplerEvent.run n false]).filterMap
      runLength = mid := by
  induction mid with
  | nil => rfl
  | cons a t ih =>
      simp only [List.flatMap_cons, List.filterMap_append, ih, List.filterMap_cons,
        runLength_double, runLength_run, List.filterMap_nil]
      rfl

lemma sum_dropLast_getLast (l : List ℕ) (h : l ≠ []) :
    l.dropLast.sum + l.getLast h = l.sum := by
  conv_rhs => rw [← List.dropLast_append_getLast h]
  simp

/-- **C8**: over a whole run with an `n`-entry schedule, `main` issues exactly
`n - 1` `double_resolution` events (one between consecutive phases), never any
resolution-decreasing event (the number of doublings before any point of the
trace is monotone), the run lengths are the schedule entries with the final
entry split into `last - recorded` unrecorded plus `recorded` recorded
iterations, and the total number of sampling iterations is the sum of the
schedule. -/
theorem mainSchedule_spec (schedule : List ℕ) (r : ℕ) (hne : schedule ≠ [])
    (hr : r ≤ schedule.getLast hne) :
    ∃ evs, mainSchedule schedule r = some evs ∧
      evs.countP (fun e => isDouble e) = schedule.length - 1 ∧
      evs.filterMap runLength = schedule.dropLast ++ [schedule.getLast hne - r, r] ∧
      (evs.filterMap runLength).sum = schedule.sum ∧
      Monotone (fun i => ((evs.take i).countP (fun e => isDouble e))) := by
  have hlast : schedule.getLast? = some (schedule.getLast hne) :=
    List.getLast?_eq_getLast schedule hne
  have hmain : mainSchedule schedule r =
      some (mainEvents schedule r (schedule.getLast hne - r)) := by
    simp only [mainSchedule, hlast, checkedSub, if_pos hr, if_neg (not_lt.mpr hr)]
  have hruns : (mainEvents schedule r (schedule.getLast hne - r)).filterMap runLength =
      schedule.dropLast ++ [schedule.getLast hne - r, r] := by
    cases schedule with
    | nil => exact absurd rfl hne
    | cons s0 t =>
      cases t with
      | nil => simp [mainEvents, runLength_run, List.filterMap_cons]
      | cons s1 t' =>
        simp only [mainEvents, List.length_cons, if_pos (by simp : 1 < t'.length + 1 + 1)]
        simp only [List.cons_append, List.filterMap_append, List.filterMap_cons, flat_runs,
          runLength_double, runLength_run, List.filterMap_nil, List.drop_succ_cons,
          List.drop_zero, List.headD_cons]
        simp only [List.dropLast_cons₂, List.getLast_cons_cons, List.cons_append]
        simp
  refine ⟨_, hmain, ?_, hruns, ?_, ?_⟩
  · -- number of doublings
    cases schedule with
    | nil => exact absurd rfl hne
    | cons s0 t =>
      cases t with
      | nil => simp [mainEvents, List.countP_cons, isDouble_run]
      | cons s1 t' =>
        simp only [mainEvents, List.length_cons, if_pos (by simp : 1 < t'.length + 1 + 1)]
        simp only [List.cons_append, List.countP_append, List.countP_cons, List.countP_nil,
          flat_countP, isDouble_double, isDouble_run, List.drop_succ_cons, List.drop_zero]
        simp only [List.length_dropLast, List.length_cons]
        simp
  · -- total iteration count
    rw [hruns]
    rw [List.sum_append]
    have hsum := sum_dropLast_getLast schedule hne
    simp only [List.sum_cons, List.sum_nil]
    omega
  · -- monotone doubling count along the trace
    intro i j hij
    dsimp only
    have htt : (mainEvents schedule r (schedule.getLast hne - r)).take i =
        ((mainEvents schedule r (schedule.getLast hne - r)).take j).take i := by
      rw [List.take_take, min_eq_left hij]
    rw [htt]
    exact (List.take_sublist _ _).countP_le _

/-- **C9**: the guard at main.rs line 355 (panic when
`recorded_samples > *schedule.last()`) makes the `usize` subtraction
`*schedule.last() - recorded_samples` at line 646 well-defined: whenever the
guard passes, the checked subtraction succeeds (no underflow, also as an
integer), and the two final sampling phases run `last - recorded_samples` and
`recorded_samples` iterations, together accounting for exactly the last
schedule entry. -/
theorem mainSchedule_guard_subtraction (schedule : List ℕ) (r : ℕ) (hne : schedule ≠ [])
    (hguard : ¬ r > schedule.getLast hne) :
    checkedSub (schedule.getLast hne) r = some (schedule.getLast hne - r) ∧
    (0 : ℤ) ≤ (schedule.getLast hne : ℤ) - (r : ℤ) ∧
    (schedule.getLast hne - r) + r = schedule.getLast hne ∧
    ∃ evs, mainSchedule schedule r = some evs ∧
      evs.drop (evs.length - 2) =
        [SamplerEvent.run (schedule.getLast hne - r) false, SamplerEvent.run r true] := by
  have hr : r ≤ schedule.getLast hne := not_lt.mp hguard
  refine ⟨by simp [checkedSub, hr], by omega, by omega, ?_⟩
  have hlast : schedule.getLast? = some (schedule.getLast hne) :=
    List.getLast?_eq_getLast schedule hne
  refine ⟨mainEvents schedule r (schedule.getLast hne - r), ?_, ?_⟩
  · simp only [mainSchedule, hlast, checkedSub, if_pos hr, if_neg hguard]
  · set pre := (if 1 < schedule.length then
        SamplerEvent.run (schedule.headD 0) false ::
          ((schedule.drop 1).dropLast.flatMap
            (fun niter => [SamplerEvent.doubleResolution, SamplerEvent.run niter false])) ++
          [SamplerEvent.doubleResolution]
      else []) with hpre
    have hm : mainEvents schedule r (schedule.getLast hne - r) =
        pre ++ [SamplerEvent.run (schedule.getLast hne - r) false,
                SamplerEvent.run r true] := by
      rw [mainEvents, hpre]
    rw [hm]
    have hlen : (pre ++ [SamplerEvent.run (schedule.getLast hne - r) false,
        SamplerEvent.run r true]).length - 2 = pre.length := by
      simp [List.length_append]
    rw [hlen]
    exact List.drop_left pre _


/-! ### Boundary polygon extraction (src/src/sampler/polygons.rs lines 125-289)

The `Cube`/`CubeLayout` voxel type lives in `src/sampler/cubebinsampler.rs`,
which is not part of the provided sources; its geometry is modelled from the
spec below.  Rings are kept in integer corner-lattice coordinates; the final
`cube_corner_to_world_pos` conversion to `f32` microns is outside the model. -/

/-- Modelled from the spec: a voxel `(i, j, k)` — `(i, j)` locate it within the
planar tiling, `k` is the discrete depth layer (`Cube` of
`cubebinsampler.rs`, not in src/). -/
structure Cube where
  i : ℤ
  j : ℤ
  k : ℤ
deriving DecidableEq

/-- Modelled from the spec: `Cube::new` (not in src/). -/
def Cube.new (i j k : ℤ) : Cube := ⟨i, j, k⟩

/-- Modelled from the spec: `von_neumann_neighborhood_xy` (not in src/) — the
four planar (xy) neighbors of a voxel at the same layer. -/
def Cube.vonNeumannNeighborhoodXY (c : Cube) : List Cube :=
  [⟨c.i + 1, c.j, c.k⟩, ⟨c.i - 1, c.j, c.k⟩, ⟨c.i, c.j + 1, c.k⟩, ⟨c.i, c.j - 1, c.k⟩]

/-- Modelled from the spec: `edge_xy` (not in src/) — the two corner points
shared by voxel `c` and planar neighbor `n`, in integer corner-lattice
coordinates, where `(i, j)` is the lower-left corner of voxel `(i, j, k)`. -/
def Cube.edgeXY (c n : Cube) : Pt × Pt :=
  if n.i = c.i + 1 then ((c.i + 1, c.j), (c.i + 1, c.j + 1))
  else if n.i = c.i - 1 then ((c.i, c.j), (c.i, c.j + 1))
  else if n.j = c.j + 1 then ((c.i, c.j + 1), (c.i + 1, c.j + 1))
  else ((c.i, c.j), (c.i + 1, c.j))

/-- An oriented boundary edge `(k, start, end)`, the Rust
`(i32, (i32, i32), (i32, i32))`. -/
abbrev Edge : Type := ℤ × Pt × Pt

/-- Translation of `reverse_edge` (polygons.rs lines 28-30). -/
def reverse_edge (e : Edge) : Edge := (e.1, e.2.2, e.2.1)

/-- The edge-collection loop of `cell_voxels_to_polygons` (lines 131-146):
for each member voxel and each planar neighbor that is not a member, both
orientations of the shared-corner edge are pushed. -/
def collectEdges (voxels : List Cube) : List Edge :=
  voxels.flatMap (fun voxel =>
    voxel.vonNeumannNeighborhoodXY.flatMap (fun n =>
      if n ∈ voxels then []
      else [(voxel.k, (voxel.edgeXY n).1, (voxel.edgeXY n).2),
            (voxel.k, (voxel.edgeXY n).2, (voxel.edgeXY n).1)]))

/-- Lexicographic strict order on corner points (`i32` pair `Ord`). -/
def ptLt (a b : Pt) : Prop := a.1 < b.1 ∨ (a.1 = b.1 ∧ a.2 < b.2)

/-- Lexicographic order on corner points. -/
def ptLe (a b : Pt) : Prop := a.1 < b.1 ∨ (a.1 = b.1 ∧ a.2 ≤ b.2)

/-- The derived lexicographic `Ord` on `(i32, (i32, i32), (i32, i32))` used by
`self.edges.sort_unstable()` (line 146). -/
def edgeLe (e f : Edge) : Prop :=
  e.1 < f.1 ∨ (e.1 = f.1 ∧ (ptLt e.2.1 f.2.1 ∨ (e.2.1 = f.2.1 ∧ ptLe e.2.2 f.2.2)))

instance : DecidableRel ptLt := fun a b => by unfold ptLt; infer_instance

instance : DecidableRel ptLe := fun a b => by unfold ptLe; infer_instance

instance : DecidableRel edgeLe := fun a b => by unfold edgeLe ptLt ptLe; infer_instance

/-- `kmin` of the collection loop (sentinel `i32::MAX`, line 132). -/
def kminOf (voxels : List Cube) : ℤ :=
  voxels.foldl (fun m v => min m v.k) 2147483647

/-- `kmax` of the collection loop (sentinel `i32::MIN`, line 133). -/
def kmaxOf (voxels : List Cube) : ℤ :=
  voxels.foldl (fun m v => max m v.k) (-2147483648)

/-- The Rust range `lo..hi+1` over `i32` (empty when `hi < lo`). -/
def intRange (lo hi : ℤ) : List ℤ :=
  (List.range (hi + 1 - lo).toNat).map (fun (n : ℕ) => lo + (n : ℤ))

/-- The `partition_point` slice of edges whose start corner is `v`
(lines 187-189); on the sorted layer slice this filter is exactly the
contiguous range between the two partition points. -/
def adjacent_edges (edges_k : List Edge) (v : Pt) : List Edge :=
  edges_k.filter (fun e => decide (e.2.1 = v))

/-- The checkerboard-corner disambiguation (lines 217-246): the next corner
`w` as a function of the incoming direction and the membership test
`voxels.contains(&Cube::new(k, v.0, v.1))` (line 222, argument order as in
the source); the final `else` branches are `unreachable!()` in the source. -/
def chooseW (voxels : List Cube) (kk δi δj : ℤ) (v : Pt) : Pt :=
  if Cube.new kk v.1 v.2 ∈ voxels then
    if δi = -1 then (v.1, v.2 - 1)
    else if δi = 1 then (v.1, v.2 + 1)
    else if δj = -1 then (v.1 - 1, v.2)
    else if δj = 1 then (v.1 + 1, v.2)
    else v
  else
    if δi = -1 then (v.1, v.2 + 1)
    else if δi = 1 then (v.1, v.2 - 1)
    else if δj = -1 then (v.1 + 1, v.2)
    else if δj = 1 then (v.1 - 1, v.2)
    else v

/-- The inner `while` walk of `cell_voxels_to_polygons` (lines 182-260).
State: the set of visited edges (`mark_visited` marks an edge together with
its reverse), the `nvisited` counter, the polygon built so far and the last
two corners `u, v`.  Breaks return the polygon unchanged; recursion is
bounded by `fuel` (the Rust loop terminates because each step marks two
previously unvisited edges). -/
def walkLoop (voxels : List Cube) (kk : ℤ) (edges_k : List Edge) :
    ℕ → List Edge → ℕ → List Pt → Pt → Pt → List Pt × List Edge × ℕ
  | 0, visited, nvisited, polygon, _, _ => (polygon, visited, nvisited)
  | fuel + 1, visited, nvisited, polygon, u, v =>
    if nvisited < edges_k.length then
      let δi := v.1 - u.1
      let δj := v.2 - u.2
      let adj := adjacent_edges edges_k v
      if adj.length = 2 then
        let e0 := adj.headD (kk, v, v)
        let e1 := adj.getLastD (kk, v, v)
        if e0 = (kk, v, u) then
          if e1 ∈ visited then (polygon, visited, nvisited)
          else walkLoop voxels kk edges_k fuel (e1 :: reverse_edge e1 :: visited)
            (nvisited + 2) (polygon ++ [e1.2.2]) v e1.2.2
        else
          if e0 ∈ visited then (polygon, visited, nvisited)
          else walkLoop voxels kk edges_k fuel (e0 :: reverse_edge e0 :: visited)
            (nvisited + 2) (polygon ++ [e0.2.2]) v e0.2.2
      else
        let w := chooseW voxels kk δi δj v
        let e : Edge := (kk, v, w)
        if e ∈ visited then (polygon, visited, nvisited)
        else walkLoop voxels kk edges_k fuel (e :: reverse_edge e :: visited)
          (nvisited + 2) (polygon ++ [w]) v w
    else (polygon, visited, nvisited)

/-- The outer `while nvisited < nedges` loop (lines 166-283): pick the first
unvisited edge, walk the ring from it, post-process with
`antialias_polygon` and `simplify_polygon`, repeat. -/
def tracePolygons (voxels : List Cube) (kk : ℤ) (edges_k : List Edge) :
    ℕ → List Edge → ℕ → List (List Pt)
  | 0, _, _ => []
  | fuel + 1, visited, nvisited =>
    if nvisited < edges_k.length then
      match edges_k.find? (fun e => !(decide (e ∈ visited))) with
      | none => []
      | some e =>
        let res := walkLoop voxels kk edges_k (edges_k.length + 1)
          (e :: reverse_edge e :: visited) (nvisited + 2) [e.2.1, e.2.2] e.2.1 e.2.2
        simplify_polygon (antialias_polygon res.1) ::
          tracePolygons voxels kk edges_k fuel res.2.1 res.2.2
    else []

/-- Translation of `PolygonBuilder::cell_voxels_to_polygons` (lines 125-289),
with rings kept in corner-lattice coordinates (the `f32` world conversion of
lines 267-274 is floating point and outside the model). -/
def cell_voxels_to_polygons (voxels : List Cube) : List (ℤ × List (List Pt)) :=
  let edges := List.insertionSort edgeLe (collectEdges voxels)
  (intRange (kminOf voxels) (kmaxOf voxels)).map (fun kk =>
    let edges_k := edges.filter (fun e => decide (e.1 = kk))
    (kk, tracePolygons voxels kk edges_k (edges_k.length + 1) [] 0))


/-- Consecutive vertex pairs (the drawn segments) of a ring. -/
def ringSegments (r : List Pt) : List (Pt × Pt) := r.zip r.tail

/-- **C3**: a single-voxel region yields exactly one ring, closed by repeating
the start point, whose vertex set is the four distinct corners of the unit
footprint; a region of two planar-adjacent voxels in one layer (either
orientation) yields exactly one ring consisting of the outer perimeter only,
with the internal shared edge absent in both orientations. -/
theorem cell_voxels_to_polygons_small_regions :
    (cell_voxels_to_polygons [Cube.new 0 0 0] =
        [(0, [[(0, 0), (0, 1), (1, 1), (1, 0), (0, 0)]])] ∧
      ([((0 : ℤ), (0 : ℤ)), (0, 1), (1, 1), (1, 0)] : List Pt).Nodup) ∧
    (cell_voxels_to_polygons [Cube.new 0 0 0, Cube.new 1 0 0] =
        [(0, [[(0, 0), (0, 1), (2, 1), (2, 0), (0, 0)]])] ∧
      (((1, 0), (1, 1)) ∉ ringSegments [(0, 0), (0, 1), (2, 1), (2, 0), (0, 0)] ∧
       ((1, 1), (1, 0)) ∉ ringSegments [(0, 0), (0, 1), (2, 1), (2, 0), (0, 0)])) ∧
    (cell_voxels_to_polygons [Cube.new 0 0 0, Cube.new 0 1 0] =
        [(0, [[(0, 0), (0, 2), (1, 2), (1, 0), (0, 0)]])] ∧
      (((0, 1), (1, 1)) ∉ ringSegments [(0, 0), (0, 2), (1, 2), (1, 0), (0, 0)] ∧
       ((1, 1), (0, 1)) ∉ ringSegments [(0, 0), (0, 2), (1, 2), (1, 0), (0, 0)])) := by
  exact ⟨⟨by decide, by decide⟩, ⟨by decide, by decide, by decide⟩,
    ⟨by decide, by decide, by decide⟩⟩


/-! ### C5: the collected edge list -/

lemma mem_collectEdges {voxels : List Cube} {e : Edge} :
    e ∈ collectEdges voxels ↔
      ∃ u ∈ voxels, ∃ n ∈ u.vonNeumannNeighborhoodXY, n ∉ voxels ∧
        (e = (u.k, (u.edgeXY n).1, (u.edgeXY n).2) ∨
         e = (u.k, (u.edgeXY n).2, (u.edgeXY n).1)) := by
  simp only [collectEdges, List.mem_flatMap]
  constructor
  · rintro ⟨u, hu, hmem⟩
    obtain ⟨n, hn, he⟩ := hmem
    by_cases hnv : n ∈ voxels
    · rw [if_pos hnv] at he
      exact absurd he (List.not_mem_nil e)
    · rw [if_neg hnv] at he
      simp only [List.mem_cons, List.mem_singleton, List.not_mem_nil, or_false] at he
      exact ⟨u, hu, n, hn, hnv, he⟩
  · rintro ⟨u, hu, n, hn, hnv, he⟩
    refine ⟨u, hu, n, hn, ?_⟩
    rw [if_neg hnv]
    simpa using he

lemma flatMap_length_even {α β : Type} (l : List α) (f : α → List β)
    (h : ∀ x, 2 ∣ (f x).length) : 2 ∣ (l.flatMap f).length := by
  induction l with
  | nil => simp
  | cons a t ih =>
      rw [List.flatMap_cons, List.length_append]
      exact Nat.dvd_add (h a) ih

lemma reverse_edge_involutive (e : Edge) : reverse_edge (reverse_edge e) = e := rfl

lemma reverse_edge_mem {voxels : List Cube} {e : Edge}
    (h : e ∈ collectEdges voxels) : reverse_edge e ∈ collectEdges voxels := by
  rw [mem_collectEdges] at h ⊢
  obtain ⟨u, hu, n, hn, hnv, he⟩ := h
  refine ⟨u, hu, n, hn, hnv, ?_⟩
  rcases he with he | he
  · right; rw [he]; rfl
  · left; rw [he]; rfl

/-- **C5**: the edge list collected before tracing contains exactly, for every
member voxel `u` and every planar (von Neumann, xy) neighbor `n` that is not a
member, both orientations of the edge between the two corner points shared by
`u` and `n` at `u`'s layer (integer corner-lattice coordinates);
consequently the list has even length, and it contains an oriented edge if
and only if it contains its reverse. -/
theorem collectEdges_spec (voxels : List Cube) :
    (∀ e : Edge, e ∈ collectEdges voxels ↔
      ∃ u ∈ voxels, ∃ n ∈ u.vonNeumannNeighborhoodXY, n ∉ voxels ∧
        (e = (u.k, (u.edgeXY n).1, (u.edgeXY n).2) ∨
         e = (u.k, (u.edgeXY n).2, (u.edgeXY n).1))) ∧
    2 ∣ (collectEdges voxels).length ∧
    (∀ e : Edge, e ∈ collectEdges voxels ↔ reverse_edge e ∈ collectEdges voxels) := by
  refine ⟨fun e => mem_collectEdges, ?_, fun e => ?_⟩
  · refine flatMap_length_even _ _ (fun u => flatMap_length_even _ _ (fun n => ?_))
    by_cases hnv : n ∈ voxels
    · rw [if_pos hnv]; simp
    · rw [if_neg hnv]; simp
  · constructor
    · exact reverse_edge_mem
    · intro h
      have h2 := reverse_edge_mem h
      rwa [reverse_edge_involutive] at h2


/-! ### C10: one multipolygon per layer from kmin to kmax -/

lemma foldl_min_le_init : ∀ (l : List Cube) (init : ℤ),
    l.foldl (fun m c => min m c.k) init ≤ init
  | [], _ => le_refl _
  | a :: t, init =>
      le_trans (foldl_min_le_init t (min init a.k)) (min_le_left _ _)

lemma foldl_min_le_mem : ∀ (l : List Cube) (init : ℤ) (v : Cube), v ∈ l →
    l.foldl (fun m c => min m c.k) init ≤ v.k
  | a :: t, init, v, hv => by
      rcases List.mem_cons.mp hv with h | h
      · subst h
        exact le_trans (foldl_min_le_init t (min init v.k)) (min_le_right _ _)
      · exact foldl_min_le_mem t (min init a.k) v h

lemma foldl_min_attained : ∀ (l : List Cube) (init : ℤ),
    l.foldl (fun m c => min m c.k) init = init ∨
      ∃ v ∈ l, l.foldl (fun m c => min m c.k) init = v.k
  | [], _ => Or.inl rfl
  | a :: t, init => by
      rcases foldl_min_attained t (min init a.k) with h | ⟨v, hv, h⟩
      · rcases le_total init a.k with hle | hle
        · left
          rw [min_eq_left hle] at h
          rw [List.foldl_cons, min_eq_left hle]
          exact h
        · right
          refine ⟨a, List.mem_cons_self a t, ?_⟩
          rw [min_eq_right hle] at h
          rw [List.foldl_cons, min_eq_right hle]
          exact h
      · exact Or.inr ⟨v, List.mem_cons_of_mem a hv, by rw [List.foldl_cons]; exact h⟩

lemma foldl_max_init_le : ∀ (l : List Cube) (init : ℤ),
    init ≤ l.foldl (fun m c => max m c.k) init
  | [], _ => le_refl _
  | a :: t, init =>
      le_trans (le_max_left _ _) (foldl_max_init_le t (max init a.k))

lemma foldl_max_mem_le : ∀ (l : List Cube) (init : ℤ) (v : Cube), v ∈ l →
    v.k ≤ l.foldl (fun m c => max m c.k) init
  | a :: t, init, v, hv => by
      rcases List.mem_cons.mp hv with h | h
      · subst h
        exact le_trans (le_max_right _ _) (foldl_max_init_le t (max init v.k))
      · exact foldl_max_mem_le t (max init a.k) v h

lemma foldl_max_attained : ∀ (l : List Cube) (init : ℤ),
    l.foldl (fun m c => max m c.k) init = init ∨
      ∃ v ∈ l, l.foldl (fun m c => max m c.k) init = v.k
  | [], _ => Or.inl rfl
  | a :: t, init => by
      rcases foldl_max_attained t (max init a.k) with h | ⟨v, hv, h⟩
      · rcases le_total a.k init with hle | hle
        · left
          rw [max_eq_left hle] at h
          rw [List.foldl_cons, max_eq_left hle]
          exact h
        · right
          refine ⟨a, List.mem_cons_self a t, ?_⟩
          rw [max_eq_right hle] at h
          rw [List.foldl_cons, max_eq_right hle]
          exact h
      · exact Or.inr ⟨v, List.mem_cons_of_mem a hv, by rw [List.foldl_cons]; exact h⟩

lemma kminOf_le_mem (voxels : List Cube) (v : Cube) (hv : v ∈ voxels) :
    kminOf voxels ≤ v.k := foldl_min_le_mem voxels 2147483647 v hv

lemma kminOf_attained (voxels : List Cube) :
    kminOf voxels = 2147483647 ∨ ∃ v ∈ voxels, kminOf voxels = v.k :=
  foldl_min_attained voxels 2147483647

lemma kmaxOf_mem_le (voxels : List Cube) (v : Cube) (hv : v ∈ voxels) :
    v.k ≤ kmaxOf voxels := foldl_max_mem_le voxels (-2147483648) v hv

lemma kmaxOf_attained (voxels : List Cube) :
    kmaxOf voxels = -2147483648 ∨ ∃ v ∈ voxels, kmaxOf voxels = v.k :=
  foldl_max_attained voxels (-2147483648)

lemma map_fst_pair {β : Type} (r : List ℤ) (f : ℤ → β) :
    (r.map (fun kk => (kk, f kk))).map Prod.fst = r := by
  induction r with
  | nil => rfl
  | cons a t ih => simp [ih]

lemma intRange_pairwise (lo hi : ℤ) : (intRange lo hi).Pairwise (· < ·) := by
  rw [intRange]
  refine List.Pairwise.map _ (fun a b h => ?_) (List.pairwise_lt_range _)
  omega

/-- **C10**: `cell_voxels_to_polygons` returns one `(k, multipolygon)` pair for
every integer layer from the minimum to the maximum member layer inclusive, in
strictly increasing order of `k`; a layer with no boundary edges gets an empty
multipolygon; the empty voxel set gives the empty vector.  The bounds
hypothesis keeps the `i32` sentinels (`i32::MAX`/`i32::MIN`) and `kmax + 1`
within `i32` semantics. -/
theorem cell_voxels_to_polygons_layers (voxels : List Cube)
    (hk : ∀ v ∈ voxels, -2147483648 ≤ v.k ∧ v.k ≤ 2147483646) :
    (cell_voxels_to_polygons voxels).map Prod.fst =
        intRange (kminOf voxels) (kmaxOf voxels) ∧
    ((cell_voxels_to_polygons voxels).map Prod.fst).Pairwise (· < ·) ∧
    (voxels = [] → cell_voxels_to_polygons voxels = []) ∧
    (∀ kk polys, (kk, polys) ∈ cell_voxels_to_polygons voxels →
      (∀ e ∈ collectEdges voxels, e.1 ≠ kk) → polys = []) ∧
    (voxels ≠ [] →
      (∃ v ∈ voxels, kminOf voxels = v.k) ∧ (∀ v ∈ voxels, kminOf voxels ≤ v.k) ∧
      (∃ v ∈ voxels, kmaxOf voxels = v.k) ∧ (∀ v ∈ voxels, v.k ≤ kmaxOf voxels)) := by
  have hmap : (cell_voxels_to_polygons voxels).map Prod.fst =
      intRange (kminOf voxels) (kmaxOf voxels) := map_fst_pair _ _
  refine ⟨hmap, ?_, ?_, ?_, ?_⟩
  · rw [hmap]; exact intRange_pairwise _ _
  · intro hnil
    subst hnil
    decide
  · intro kk polys hmem hno
    simp only [cell_voxels_to_polygons, List.mem_map] at hmem
    obtain ⟨kk2, -, heq⟩ := hmem
    obtain ⟨rfl, rfl⟩ : kk2 = kk ∧
        tracePolygons voxels kk2
          ((List.insertionSort edgeLe (collectEdges voxels)).filter
            (fun e => decide (e.1 = kk2)))
          (((List.insertionSort edgeLe (collectEdges voxels)).filter
            (fun e => decide (e.1 = kk2))).length + 1) [] 0 = polys := by
      exact ⟨congrArg Prod.fst heq, congrArg Prod.snd heq⟩
    have hfilter : (List.insertionSort edgeLe (collectEdges voxels)).filter
        (fun e => decide (e.1 = kk2)) = [] := by
      rw [List.filter_eq_nil_iff]
      intro e he
      have hmem2 : e ∈ collectEdges voxels :=
        (List.perm_insertionSort edgeLe (collectEdges voxels)).mem_iff.mp he
      simpa using hno e hmem2
    rw [hfilter]
    rfl
  · intro hne
    obtain ⟨v0, hv0⟩ := List.exists_mem_of_ne_nil voxels hne
    refine ⟨?_, fun v hv => kminOf_le_mem voxels v hv, ?_,
      fun v hv => kmaxOf_mem_le voxels v hv⟩
    · rcases kminOf_attained voxels with h | h
      · exfalso
        have h1 := kminOf_le_mem voxels v0 hv0
        have h2 := (hk v0 hv0).2
        omega
      · exact h
    · rcases kmaxOf_attained voxels with h | h
      · -- the sentinel can only survive if some member layer equals i32::MIN
        refine ⟨v0, hv0, ?_⟩
        have h1 := kmaxOf_mem_le voxels v0 hv0
        have h2 := (hk v0 hv0).1
        omega
      · exact h


/-! ### C4: every corner on a traced ring has 2 or 4 outgoing edges

The `assert!(adjacent_edges.len() == 2 || adjacent_edges.len() == 4)` at
polygons.rs line 193: the number of collected oriented edges starting at a
corner equals the number of member/non-member sign changes around the four
voxels surrounding the corner, which is even; it is positive at every corner
incident to a collected edge (and every corner reached while tracing is an
endpoint of a collected edge). -/

/-- The predicate selecting layer-`kk` edges whose start corner is `vv`. -/
def edgePred (kk : ℤ) (vv : Pt) : Edge → Bool :=
  fun e => decide (e.1 = kk) && decide (e.2.1 = vv)

/-- The contribution of one member voxel `u` to the layer-`kk` edges starting
at corner `vv`. -/
def cornerCount (voxels : List Cube) (kk : ℤ) (vv : Pt) (u : Cube) : ℕ :=
  List.countP (edgePred kk vv)
    (u.vonNeumannNeighborhoodXY.flatMap (fun n =>
      if n ∈ voxels then []
      else [(u.k, (u.edgeXY n).1, (u.edgeXY n).2), (u.k, (u.edgeXY n).2, (u.edgeXY n).1)]))

lemma edgeXY_right (u : Cube) :
    u.edgeXY ⟨u.i + 1, u.j, u.k⟩ = ((u.i + 1, u.j), (u.i + 1, u.j + 1)) := by
  simp [Cube.edgeXY]

lemma edgeXY_left (u : Cube) :
    u.edgeXY ⟨u.i - 1, u.j, u.k⟩ = ((u.i, u.j), (u.i, u.j + 1)) := by
  rw [Cube.edgeXY]
  rw [if_neg (by omega : ¬(u.i - 1 = u.i + 1))]
  simp

lemma edgeXY_up (u : Cube) :
    u.edgeXY ⟨u.i, u.j + 1, u.k⟩ = ((u.i, u.j + 1), (u.i + 1, u.j + 1)) := by
  rw [Cube.edgeXY]
  rw [if_neg (by omega : ¬(u.i = u.i + 1)), if_neg (by omega : ¬(u.i = u.i - 1))]
  simp

lemma edgeXY_down (u : Cube) :
    u.edgeXY ⟨u.i, u.j - 1, u.k⟩ = ((u.i, u.j), (u.i + 1, u.j)) := by
  rw [Cube.edgeXY]
  rw [if_neg (by omega : ¬(u.i = u.i + 1)), if_neg (by omega : ¬(u.i = u.i - 1)),
      if_neg (by omega : ¬(u.j - 1 = u.j + 1))]

lemma countP_flatMap {α β : Type} (p : β → Bool) (l : List α) (f : α → List β) :
    List.countP p (l.flatMap f) = (l.map (fun x => List.countP p (f x))).sum := by
  induction l with
  | nil => rfl
  | cons x t ih => simp [List.flatMap_cons, List.countP_append, ih]

lemma cornerCount_support (voxels : List Cube) (kk a b : ℤ) (u : Cube)
    (h : ¬(u.k = kk ∧ (u.i = a - 1 ∨ u.i = a) ∧ (u.j = b - 1 ∨ u.j = b))) :
    cornerCount voxels kk (a, b) u = 0 := by
  unfold cornerCount
  simp only [Cube.vonNeumannNeighborhoodXY, List.flatMap_cons, List.flatMap_nil,
    List.append_nil, List.countP_append]
  rw [edgeXY_right u, edgeXY_left u, edgeXY_up u, edgeXY_down u]
  simp only [apply_ite (List.countP (edgePred kk (a, b))), List.countP_nil, List.countP_cons,
    edgePred, Bool.and_eq_true, decide_eq_true_eq, Prod.mk.injEq, eq_self_iff_true,
    true_and, and_true]
  split_ifs <;> omega

lemma cornerCount_eval_19 (voxels : List Cube) (kk a b : ℤ) :
    cornerCount voxels kk (a, b) ⟨a - 1, b - 1, kk⟩ =
      (if (⟨a, b - 1, kk⟩ : Cube) ∈ voxels then 0 else 1) +
      (if (⟨a - 1, b, kk⟩ : Cube) ∈ voxels then 0 else 1) := by
  unfold cornerCount
  simp only [Cube.vonNeumannNeighborhoodXY, List.flatMap_cons, List.flatMap_nil,
    List.append_nil, List.countP_append]
  rw [edgeXY_right _, edgeXY_left _, edgeXY_up _, edgeXY_down _]
  have hc1 : (⟨a - 1 + 1, b - 1, kk⟩ : Cube) = ⟨a, b - 1, kk⟩ := by
    rw [Cube.mk.injEq]; exact ⟨by omega, rfl, rfl⟩
  have hc2 : (⟨a - 1, b - 1 + 1, kk⟩ : Cube) = ⟨a - 1, b, kk⟩ := by
    rw [Cube.mk.injEq]; exact ⟨rfl, by omega, rfl⟩
  rw [hc1, hc2]
  simp only [apply_ite (List.countP (edgePred kk (a, b))), List.countP_nil, List.countP_cons,
    edgePred, Bool.and_eq_true, decide_eq_true_eq, Prod.mk.injEq, eq_self_iff_true,
    true_and, and_true]
  split_ifs <;> omega

lemma cornerCount_eval_29 (voxels : List Cube) (kk a b : ℤ) :
    cornerCount voxels kk (a, b) ⟨a, b - 1, kk⟩ =
      (if (⟨a - 1, b - 1, kk⟩ : Cube) ∈ voxels then 0 else 1) +
      (if (⟨a, b, kk⟩ : Cube) ∈ voxels then 0 else 1) := by
  unfold cornerCount
  simp only [Cube.vonNeumannNeighborhoodXY, List.flatMap_cons, List.flatMap_nil,
    List.append_nil, List.countP_append]
  rw [edgeXY_right _, edgeXY_left _, edgeXY_up _, edgeXY_down _]
  have hc1 : (⟨a, b - 1 + 1, kk⟩ : Cube) = ⟨a, b, kk⟩ := by
    rw [Cube.mk.injEq]; exact ⟨rfl, by omega, rfl⟩
  rw [hc1]
  simp only [apply_ite (List.countP (edgePred kk (a, b))), List.countP_nil, List.countP_cons,
    edgePred, Bool.and_eq_true, decide_eq_true_eq, Prod.mk.injEq, eq_self_iff_true,
    true_and, and_true]
  split_ifs <;> omega

lemma cornerCount_eval_39 (voxels : List Cube) (kk a b : ℤ) :
    cornerCount voxels kk (a, b) ⟨a, b, kk⟩ =
      (if (⟨a - 1, b, kk⟩ : Cube) ∈ voxels then 0 else 1) +
      (if (⟨a, b - 1, kk⟩ : Cube) ∈ voxels then 0 else 1) := by
  unfold cornerCount
  simp only [Cube.vonNeumannNeighborhoodXY, List.flatMap_cons, List.flatMap_nil,
    List.append_nil, List.countP_append]
  rw [edgeXY_right _, edgeXY_left _, edgeXY_up _, edgeXY_down _]
  simp only [apply_ite (List.countP (edgePred kk (a, b))), List.countP_nil, List.countP_cons,
    edgePred, Bool.and_eq_true, decide_eq_true_eq, Prod.mk.injEq, eq_self_iff_true,
    true_and, and_true]
  split_ifs <;> omega

lemma cornerCount_eval_49 (voxels : List Cube) (kk a b : ℤ) :
    cornerCount voxels kk (a, b) ⟨a - 1, b, kk⟩ =
      (if (⟨a, b, kk⟩ : Cube) ∈ voxels then 0 else 1) +
      (if (⟨a - 1, b - 1, kk⟩ : Cube) ∈ voxels then 0 else 1) := by
  unfold cornerCount
  simp only [Cube.vonNeumannNeighborhoodXY, List.flatMap_cons, List.flatMap_nil,
    List.append_nil, List.countP_append]
  rw [edgeXY_right _, edgeXY_left _, edgeXY_up _, edgeXY_down _]
  have hc1 : (⟨a - 1 + 1, b, kk⟩ : Cube) = ⟨a, b, kk⟩ := by
    rw [Cube.mk.injEq]; exact ⟨by omega, rfl, rfl⟩
  rw [hc1]
  simp only [apply_ite (List.countP (edgePred kk (a, b))), List.countP_nil, List.countP_cons,
    edgePred, Bool.and_eq_true, decide_eq_true_eq, Prod.mk.injEq, eq_self_iff_true,
    true_and, and_true]
  split_ifs <;> omega


lemma cube_ne_of_coords {i1 j1 k1 i2 j2 k2 : ℤ} (h : ¬(i1 = i2 ∧ j1 = j2 ∧ k1 = k2)) :
    (⟨i1, j1, k1⟩ : Cube) ≠ ⟨i2, j2, k2⟩ := by
  rw [Ne, Cube.mk.injEq]
  exact h

lemma cornerCount_pointwise (voxels : List Cube) (kk a b : ℤ) (u : Cube) :
    cornerCount voxels kk (a, b) u =
      (if (⟨a - 1, b - 1, kk⟩ : Cube) = u then
        cornerCount voxels kk (a, b) ⟨a - 1, b - 1, kk⟩ else 0) +
      (if (⟨a, b - 1, kk⟩ : Cube) = u then
        cornerCount voxels kk (a, b) ⟨a, b - 1, kk⟩ else 0) +
      (if (⟨a, b, kk⟩ : Cube) = u then
        cornerCount voxels kk (a, b) ⟨a, b, kk⟩ else 0) +
      (if (⟨a - 1, b, kk⟩ : Cube) = u then
        cornerCount voxels kk (a, b) ⟨a - 1, b, kk⟩ else 0) := by
  by_cases h1 : (⟨a - 1, b - 1, kk⟩ : Cube) = u
  · rw [← h1, if_pos rfl, if_neg (cube_ne_of_coords (by omega)),
      if_neg (cube_ne_of_coords (by omega)), if_neg (cube_ne_of_coords (by omega))]
    omega
  · by_cases h2 : (⟨a, b - 1, kk⟩ : Cube) = u
    · rw [← h2, if_neg (cube_ne_of_coords (by omega)), if_pos rfl,
        if_neg (cube_ne_of_coords (by omega)), if_neg (cube_ne_of_coords (by omega))]
      omega
    · by_cases h3 : (⟨a, b, kk⟩ : Cube) = u
      · rw [← h3, if_neg (cube_ne_of_coords (by omega)),
          if_neg (cube_ne_of_coords (by omega)), if_pos rfl,
          if_neg (cube_ne_of_coords (by omega))]
        omega
      · by_cases h4 : (⟨a - 1, b, kk⟩ : Cube) = u
        · rw [← h4, if_neg (cube_ne_of_coords (by omega)),
            if_neg (cube_ne_of_coords (by omega)),
            if_neg (cube_ne_of_coords (by omega)), if_pos rfl]
          omega
        · rw [if_neg h1, if_neg h2, if_neg h3, if_neg h4]
          simp only [Nat.add_zero, Nat.zero_add]
          obtain ⟨ui, uj, uk⟩ := u
          rw [Cube.mk.injEq] at h1 h2 h3 h4
          exact cornerCount_support voxels kk a b ⟨ui, uj, uk⟩ (by dsimp only; omega)

lemma cornerSum (voxels : List Cube) (kk a b : ℤ) :
    ∀ V' : List Cube, V'.Nodup →
      (V'.map (cornerCount voxels kk (a, b))).sum =
        (if (⟨a - 1, b - 1, kk⟩ : Cube) ∈ V' then
          cornerCount voxels kk (a, b) ⟨a - 1, b - 1, kk⟩ else 0) +
        (if (⟨a, b - 1, kk⟩ : Cube) ∈ V' then
          cornerCount voxels kk (a, b) ⟨a, b - 1, kk⟩ else 0) +
        (if (⟨a, b, kk⟩ : Cube) ∈ V' then
          cornerCount voxels kk (a, b) ⟨a, b, kk⟩ else 0) +
        (if (⟨a - 1, b, kk⟩ : Cube) ∈ V' then
          cornerCount voxels kk (a, b) ⟨a - 1, b, kk⟩ else 0)
  | [], _ => by simp
  | u :: t, hnd => by
      obtain ⟨hu, hndt⟩ := List.nodup_cons.mp hnd
      have ih := cornerSum voxels kk a b t hndt
      have hsplit : ∀ (P : Cube) (g : ℕ),
          (if P ∈ u :: t then g else 0) = (if P ∈ t then g else 0) + (if P = u then g else 0) := by
        intro P g
        by_cases hPu : P = u
        · subst hPu
          rw [if_pos (List.mem_cons_self P t), if_neg hu, if_pos rfl]
          omega
        · rw [if_neg hPu]
          by_cases hPt : P ∈ t
          · rw [if_pos hPt, if_pos (List.mem_cons_of_mem u hPt)]
            omega
          · rw [if_neg hPt, if_neg (by
              intro hcon
              rcases List.mem_cons.mp hcon with h | h
              · exact hPu h
              · exact hPt h)]
      rw [List.map_cons, List.sum_cons, ih, hsplit, hsplit, hsplit, hsplit,
        cornerCount_pointwise voxels kk a b u]
      omega


lemma adjacent_length_eq_countP (voxels : List Cube) (kk : ℤ) (vv : Pt) :
    (adjacent_edges ((List.insertionSort edgeLe (collectEdges voxels)).filter
      (fun e => decide (e.1 = kk))) vv).length =
    List.countP (edgePred kk vv) (collectEdges voxels) := by
  rw [adjacent_edges, List.filter_filter, ← List.countP_eq_length_filter]
  have hswap : List.countP (fun e : Edge => decide (e.2.1 = vv) && decide (e.1 = kk))
      (List.insertionSort edgeLe (collectEdges voxels)) =
      List.countP (edgePred kk vv) (List.insertionSort edgeLe (collectEdges voxels)) :=
    List.countP_congr (fun e _ => by simp [edgePred, Bool.and_comm])
  rw [hswap]
  exact (List.perm_insertionSort edgeLe (collectEdges voxels)).countP_eq _

/-- **C4**: for every duplicate-free voxel set and every corner `vv` incident
to a collected boundary edge at layer `kk` (in particular every corner reached
while tracing a ring, which is always an endpoint of a collected edge), the
`adjacent_edges` slice of the sorted layer edges starting at `vv` has length
exactly 2 or exactly 4, so the assertion
`adjacent_edges.len() == 2 || adjacent_edges.len() == 4` never fails; the
length is the (even) number of member/non-member sign changes around the four
voxels surrounding the corner. -/
theorem cell_polygon_corner_degree (voxels : List Cube) (hnd : voxels.Nodup)
    (kk : ℤ) (vv : Pt)
    (hinc : ∃ e ∈ collectEdges voxels, e.1 = kk ∧ (e.2.1 = vv ∨ e.2.2 = vv)) :
    (adjacent_edges ((List.insertionSort edgeLe (collectEdges voxels)).filter
      (fun e => decide (e.1 = kk))) vv).length = 2 ∨
    (adjacent_edges ((List.insertionSort edgeLe (collectEdges voxels)).filter
      (fun e => decide (e.1 = kk))) vv).length = 4 := by
  obtain ⟨a, b⟩ := vv
  have hflat : List.countP (edgePred kk ((a : ℤ), (b : ℤ))) (collectEdges voxels) =
      (voxels.map (cornerCount voxels kk (a, b))).sum := countP_flatMap _ _ _
  have hpos : 0 < List.countP (edgePred kk ((a : ℤ), (b : ℤ))) (collectEdges voxels) := by
    obtain ⟨e, he, hk, hse⟩ := hinc
    rcases hse with hs | hs
    · refine List.countP_pos_iff.mpr ⟨e, he, ?_⟩
      simp [edgePred, hk, hs]
    · refine List.countP_pos_iff.mpr ⟨reverse_edge e, reverse_edge_mem he, ?_⟩
      simp [edgePred, reverse_edge, hk, hs]
  rw [adjacent_length_eq_countP, hflat, cornerSum voxels kk a b voxels hnd]
  rw [hflat, cornerSum voxels kk a b voxels hnd] at hpos
  by_cases m1 : (⟨a - 1, b - 1, kk⟩ : Cube) ∈ voxels <;>
    by_cases m2 : (⟨a, b - 1, kk⟩ : Cube) ∈ voxels <;>
    by_cases m3 : (⟨a, b, kk⟩ : Cube) ∈ voxels <;>
    by_cases m4 : (⟨a - 1, b, kk⟩ : Cube) ∈ voxels <;>
    simp [cornerCount_eval_19, cornerCount_eval_29, cornerCount_eval_39,
      cornerCount_eval_49, m1, m2, m3, m4] at hpos ⊢


/-! ### Connectivity checker (src/src/sampler/connectivity.rs)

`Hex` is the axial-coordinate hexagon type of the `hexx` crate;
`hex.all_neighbors()` offsets the six axial neighbor coordinates.  The
petgraph `Graph` is modelled by its insertion-order observable state: a node
count and an edge list (nodes carry no data); `neighbors` walks incident
edges newest first, outgoing before incoming, as petgraph's adjacency lists
do.  The `HashMap`s are association lists (keys are inserted at most once). -/

abbrev Hex : Type := ℤ × ℤ

def hexAdd (x y : Hex) : Hex := (x.1 + y.1, x.2 + y.2)

/-- The six axial neighbor offsets of the `hexx` crate. -/
def hexDirections : List Hex := [(1, 0), (1, -1), (0, -1), (-1, 0), (-1, 1), (0, 1)]

/-- `hex.all_neighbors()`. -/
def allNeighbors (h : Hex) : List Hex := hexDirections.map (hexAdd h)

structure NeighborhoodGraph where
  numNodes : ℕ
  edges : List (ℕ × ℕ)

def NeighborhoodGraph.addNode (g : NeighborhoodGraph) : NeighborhoodGraph × ℕ :=
  ({ g with numNodes := g.numNodes + 1 }, g.numNodes)

def NeighborhoodGraph.addEdge (g : NeighborhoodGraph) (x y : ℕ) : NeighborhoodGraph :=
  { g with edges := g.edges ++ [(x, y)] }

def NeighborhoodGraph.neighbors (g : NeighborhoodGraph) (x : ℕ) : List ℕ :=
  (g.edges.reverse.filterMap (fun e => if e.1 = x then some e.2 else none)) ++
  (g.edges.reverse.filterMap (fun e => if e.2 = x then some e.1 else none))

def lookupHex : List (Hex × ℕ) → Hex → Option ℕ
  | [], _ => none
  | (a, n) :: t, h => if a = h then some n else lookupHex t h

def containsHex (m : List (Hex × ℕ)) (h : Hex) : Bool := (lookupHex m h).isSome

/-- Translation of `ConnectivityChecker::construct_hex_subgraph` (lines
56-92): node 0 is the root voxel itself; one node per same-cell neighbor in
`all_neighbors` order; edges from the root to each same-cell neighbor, plus,
for each same-cell neighbor, an edge to every map entry among its own
neighbors whose cell matches (which duplicates root edges when the root's own
cell matches). -/
def construct_hex_subgraph (root : Hex) (hexcell : Hex → ℕ) (cell : ℕ) :
    NeighborhoodGraph × List (Hex × ℕ) :=
  let g0 : NeighborhoodGraph := ⟨0, []⟩
  let p := g0.addNode
  let m0 : List (Hex × ℕ) := [(root, p.2)]
  let st1 := (allNeighbors root).foldl
    (fun (st : NeighborhoodGraph × List (Hex × ℕ)) neighbor =>
      if cell = hexcell neighbor then
        if containsHex st.2 neighbor then st
        else
          let q := st.1.addNode
          (q.1, st.2 ++ [(neighbor, q.2)])
      else st) (p.1, m0)
  let g2 := (allNeighbors root).foldl
    (fun g neighbor =>
      if containsHex st1.2 neighbor then
        let g1 := g.addEdge ((lookupHex st1.2 root).getD 0)
          ((lookupHex st1.2 neighbor).getD 0)
        (allNeighbors neighbor).foldl
          (fun g k2 =>
            if containsHex st1.2 k2 ∧ hexcell k2 = cell then
              g.addEdge ((lookupHex st1.2 neighbor).getD 0) ((lookupHex st1.2 k2).getD 0)
            else g) g1
      else g) st1.1
  (g2, st1.2)

structure DfsInfo where
  parent : Option ℕ
  depth : ℕ
  low : ℕ

def lookupInfo : List (ℕ × DfsInfo) → ℕ → Option DfsInfo
  | [], _ => none
  | (a, d) :: t, x => if a = x then some d else lookupInfo t x

def updateInfo (m : List (ℕ × DfsInfo)) (x : ℕ) (f : DfsInfo → DfsInfo) :
    List (ℕ × DfsInfo) :=
  m.map (fun p => if p.1 = x then (p.1, f p.2) else p)

/-- The `for j in subgraph.neighbors(i)` loop body of `is_articulation_dfs`
(lines 115-139), as a fold step over the running
`(child_count, is_articulation, dfsinfo)` state: a visited neighbor other
than the parent lowers `low(i)`; an unvisited neighbor is recursed into (via
`recurse`; the returned flag is discarded), bumps `child_count`, sets the
articulation flag when `low(j) >= depth(i)`, and lowers `low(i)`; after every
neighbor, a root node (sentinel parent) overwrites the flag with
`child_count > 1`. -/
def dfs_loop_step (x : ℕ) (parent : Option ℕ)
    (recurse : ℕ → List (ℕ × DfsInfo) → Bool × List (ℕ × DfsInfo)) :
    ℕ × Bool × List (ℕ × DfsInfo) → ℕ → ℕ × Bool × List (ℕ × DfsInfo) :=
  fun st jj =>
    let childCount := st.1
    let isArt := st.2.1
    let info := st.2.2
    match lookupInfo info jj with
    | some jInfo =>
        let info2 := if some jj ≠ parent then
            updateInfo info x (fun ii => { ii with low := min ii.low jInfo.depth })
          else info
        let isArt2 := match lookupInfo info2 x with
          | some ii => if ii.parent = none then decide (childCount > 1) else isArt
          | none => isArt
        (childCount, isArt2, info2)
    | none =>
        let info2 := (recurse jj info).2
        let jLow := ((lookupInfo info2 jj).map DfsInfo.low).getD 0
        let childCount2 := childCount + 1
        let iDepth := ((lookupInfo info2 x).map DfsInfo.depth).getD 0
        let isArt2 := if jLow ≥ iDepth then true else isArt
        let info3 := updateInfo info2 x (fun ii => { ii with low := min ii.low jLow })
        let isArt3 := match lookupInfo info3 x with
          | some ii => if ii.parent = none then decide (childCount2 > 1) else isArt2
          | none => isArt2
        (childCount2, isArt3, info3)

/-- Translation of `is_articulation_dfs` (lines 98-142): `or_insert` the
node's `DfsInfo`, fold the loop body over its neighbors, and return the flag
with the updated scratch map.  The Rust recursion terminates because every
recursive call is on an unvisited node; the model carries `fuel`
(`hex_isarticulation` passes more fuel than there are nodes, which is enough
since recursion depth is bounded by the number of nodes). -/
def is_articulation_dfs (g : NeighborhoodGraph) :
    ℕ → ℕ → Option ℕ → ℕ → List (ℕ × DfsInfo) → Bool × List (ℕ × DfsInfo)
  | 0, _, _, _, info => (false, info)
  | fuel + 1, x, parent, depth, info =>
    let info1 := if (lookupInfo info x).isSome then info
      else info ++ [(x, ⟨parent, depth, depth⟩)]
    let r := (g.neighbors x).foldl
      (dfs_loop_step x parent
        (fun jj inf => is_articulation_dfs g fuel jj (some x) (depth + 1) inf))
      (0, false, info1)
    (r.2.1, r.2.2)

/-- Translation of `ConnectivityChecker::hex_isarticulation` (lines 46-54):
build the local subgraph, clear the DFS scratch state, and run the
articulation DFS from the root's node with sentinel parent and depth 0. -/
def hex_isarticulation (root : Hex) (hexcell : Hex → ℕ) (cell : ℕ) : Bool :=
  let st := construct_hex_subgraph root hexcell cell
  (is_articulation_dfs st.1 (st.1.numNodes + 1) ((lookupHex st.2 root).getD 0)
    none 0 []).1

/-! Specification side for C1, following the spec text: the root's same-region
planar neighbors, and connectivity among them by hex adjacency (the local
subgraph with the root removed). -/

/-- The planar hex neighbors of `root` that `hexcell` maps to `cell`. -/
def sameRegionNeighbors (root : Hex) (hexcell : Hex → ℕ) (cell : ℕ) : List Hex :=
  (allNeighbors root).filter (fun n => decide (hexcell n = cell))

/-- One breadth step of reachability inside the induced subgraph on `nodes`. -/
def reachStep (nodes : List Hex) (frontier : List Hex) : List Hex :=
  nodes.filter (fun x => decide (x ∈ frontier) ||
    frontier.any (fun y => decide (x ∈ allNeighbors y)))

def reachIter (nodes : List Hex) : ℕ → List Hex → List Hex
  | 0, frontier => frontier
  | fuel + 1, frontier => reachIter nodes fuel (reachStep nodes frontier)

/-- `y` is connected to `x` within the induced subgraph on `nodes` (six
breadth steps saturate any subgraph of the six-neighbor ring). -/
def reachableIn (nodes : List Hex) (x y : Hex) : Prop :=
  y ∈ reachIter nodes 6 [x]

instance (nodes : List Hex) (x y : Hex) : Decidable (reachableIn nodes x y) := by
  unfold reachableIn
  infer_instance

/-- The same-region neighbors of the removed voxel fall into two or more
connected components of the local subgraph with the voxel removed. -/
def specDisconnected (root : Hex) (hexcell : Hex → ℕ) (cell : ℕ) : Prop :=
  ∃ x ∈ sameRegionNeighbors root hexcell cell,
    ∃ y ∈ sameRegionNeighbors root hexcell cell,
      ¬ reachableIn (sameRegionNeighbors root hexcell cell) x y

instance (root : Hex) (hexcell : Hex → ℕ) (cell : ℕ) :
    Decidable (specDisconnected root hexcell cell) := by
  unfold specDisconnected
  infer_instance


lemma hexAdd_assoc2 (r : Hex) (a b c d : ℤ) :
    hexAdd (hexAdd r (a, b)) (c, d) = hexAdd r (a + c, b + d) := by
  unfold hexAdd
  rw [Prod.mk.injEq]
  constructor <;> ring

lemma hexAdd_right_inj (r : Hex) (x y : Hex) : hexAdd r x = hexAdd r y ↔ x = y := by
  unfold hexAdd
  rw [Prod.mk.injEq, Prod.ext_iff]
  omega

lemma hexAdd_eq_self (r x : Hex) : hexAdd r x = r ↔ x = (0, 0) := by
  unfold hexAdd
  rw [Prod.ext_iff, Prod.ext_iff]
  dsimp only
  omega

lemma self_eq_hexAdd (r x : Hex) : r = hexAdd r x ↔ x = (0, 0) := by
  rw [eq_comm, hexAdd_eq_self]

lemma hexAdd_zero_pair (r : Hex) : hexAdd r ((0 : ℤ), (0 : ℤ)) = r := by
  unfold hexAdd
  simp

set_option maxHeartbeats 3200000 in
/-- Case analysis on which of the root's six neighbors share its cell: in
every one of the 64 cases, both the articulation check and the
disconnection predicate evaluate, and they agree. -/
lemma hex_isarticulation_mask (root : Hex) (f : Hex → ℕ) (cell : ℕ)
    (hroot : f root = cell) (b1 b2 b3 b4 b5 b6 : Bool)
    (h1 : (f (hexAdd root (1, 0)) = cell) ↔ b1 = true)
    (h2 : (f (hexAdd root (1, -1)) = cell) ↔ b2 = true)
    (h3 : (f (hexAdd root (0, -1)) = cell) ↔ b3 = true)
    (h4 : (f (hexAdd root (-1, 0)) = cell) ↔ b4 = true)
    (h5 : (f (hexAdd root (-1, 1)) = cell) ↔ b5 = true)
    (h6 : (f (hexAdd root (0, 1)) = cell) ↔ b6 = true) :
    (hex_isarticulation root f cell = true ↔ specDisconnected root f cell) := by
  have h1c : (cell = f (hexAdd root (1, 0))) ↔ b1 = true :=
    ⟨fun h => h1.mp h.symm, fun h => (h1.mpr h).symm⟩
  have h2c : (cell = f (hexAdd root (1, -1))) ↔ b2 = true :=
    ⟨fun h => h2.mp h.symm, fun h => (h2.mpr h).symm⟩
  have h3c : (cell = f (hexAdd root (0, -1))) ↔ b3 = true :=
    ⟨fun h => h3.mp h.symm, fun h => (h3.mpr h).symm⟩
  have h4c : (cell = f (hexAdd root (-1, 0))) ↔ b4 = true :=
    ⟨fun h => h4.mp h.symm, fun h => (h4.mpr h).symm⟩
  have h5c : (cell = f (hexAdd root (-1, 1))) ↔ b5 = true :=
    ⟨fun h => h5.mp h.symm, fun h => (h5.mpr h).symm⟩
  have h6c : (cell = f (hexAdd root (0, 1))) ↔ b6 = true :=
    ⟨fun h => h6.mp h.symm, fun h => (h6.mpr h).symm⟩
  have hrootc : (f root = cell) ↔ True := ⟨fun _ => trivial, fun _ => hroot⟩
  cases b1 <;> cases b2 <;> cases b3 <;> cases b4 <;> cases b5 <;> cases b6 <;>
    (simp only [hex_isarticulation, construct_hex_subgraph, allNeighbors, hexDirections,
      NeighborhoodGraph.addNode, NeighborhoodGraph.addEdge, containsHex, lookupHex,
      hexAdd_assoc2, hexAdd_right_inj, hexAdd_eq_self, self_eq_hexAdd, hexAdd_zero_pair,
      h1, h2, h3, h4, h5, h6, h1c, h2c, h3c, h4c, h5c, h6c, hrootc,
      specDisconnected, sameRegionNeighbors, reachableIn, reachIter, reachStep,
      List.map_cons, List.map_nil, List.foldl_cons, List.foldl_nil, List.filter_cons,
      List.filter_nil, List.cons_append, List.nil_append, List.append_nil,
      if_true, if_false, Option.isSome_some, Option.isSome_none, Option.getD_some,
      Option.getD_none, decide_True, decide_False, decide_eq_true_eq,
      Prod.mk.injEq, Int.reduceAdd, Int.reduceNeg, Int.reduceEq, Nat.reduceAdd,
      Bool.or_true, Bool.true_or, Bool.or_false, Bool.false_or, Bool.and_true,
      Bool.true_and, Bool.and_false, Bool.false_and, ite_true, ite_false,
      List.any_cons, List.any_nil, List.mem_cons, List.not_mem_nil, or_false,
      false_or, or_true, true_or, and_true, true_and, and_false, false_and,
      eq_self_iff_true, not_true, not_false_iff, List.mem_singleton,
      reduceCtorEq, reduceIte, List.exists_mem_cons_iff, exists_false, exists_prop,
      not_or, not_and, not_exists, exists_eq_or_imp, exists_eq_left, exists_eq_right,
      iff_true, iff_false] <;>
     decide)


lemma mem_reachIter_of_mem : ∀ (k : ℕ) (nodes frontier : List Hex) (x : Hex),
    x ∈ frontier → x ∈ nodes → x ∈ reachIter nodes k frontier
  | 0, _, _, _, hf, _ => hf
  | k + 1, nodes, frontier, x, hf, hn => by
      refine mem_reachIter_of_mem k nodes _ x ?_ hn
      rw [reachStep, List.mem_filter]
      exact ⟨hn, by simp [hf]⟩

lemma reachableIn_self (nodes : List Hex) (x : Hex) (hx : x ∈ nodes) :
    reachableIn nodes x x :=
  mem_reachIter_of_mem 6 nodes [x] x (List.mem_singleton.mpr rfl) hx

lemma two_le_length_of_two_mem {α : Type} {l : List α} {x y : α}
    (hx : x ∈ l) (hy : y ∈ l) (hxy : x ≠ y) : 2 ≤ l.length := by
  match l, hx, hy with
  | [a], hx, hy =>
      rw [List.mem_singleton] at hx hy
      exact absurd (hx.trans hy.symm) hxy
  | a :: b :: t, _, _ => simp

/-- **C1**: `hex_isarticulation(v, hexcell, c)` with `hexcell v = c` returns
`true` exactly when `v`'s same-region planar neighbors fall into two or more
connected components of the local subgraph with `v` removed; in particular it
returns `false` whenever `v` has at most one same-region planar neighbor. -/
theorem hex_isarticulation_iff_disconnects (root : Hex) (hexcell : Hex → ℕ) (cell : ℕ)
    (hroot : hexcell root = cell) :
    (hex_isarticulation root hexcell cell = true ↔ specDisconnected root hexcell cell) ∧
    ((sameRegionNeighbors root hexcell cell).length ≤ 1 →
      hex_isarticulation root hexcell cell = false) := by
  have hiff := hex_isarticulation_mask root hexcell cell hroot
    (decide (hexcell (hexAdd root (1, 0)) = cell))
    (decide (hexcell (hexAdd root (1, -1)) = cell))
    (decide (hexcell (hexAdd root (0, -1)) = cell))
    (decide (hexcell (hexAdd root (-1, 0)) = cell))
    (decide (hexcell (hexAdd root (-1, 1)) = cell))
    (decide (hexcell (hexAdd root (0, 1)) = cell))
    (by simp) (by simp) (by simp) (by simp) (by simp) (by simp)
  refine ⟨hiff, ?_⟩
  intro hlen
  cases hb : hex_isarticulation root hexcell cell with
  | false => rfl
  | true =>
      exfalso
      obtain ⟨x, hx, y, hy, hxy⟩ := hiff.mp hb
      by_cases heq : x = y
      · exact hxy (heq ▸ reachableIn_self _ x hx)
      · have h2 := two_le_length_of_two_mem hx hy heq
        omega


/-! ### C2: the constructed node set (1-hop including the root, not 2-hop excluding it) -/

lemma lookupHex_append (m1 m2 : List (Hex × ℕ)) (h : Hex) :
    lookupHex (m1 ++ m2) h = (lookupHex m1 h).or (lookupHex m2 h) := by
  induction m1 with
  | nil => simp [lookupHex]
  | cons p t ih =>
      obtain ⟨b, v⟩ := p
      by_cases hb : b = h
      · simp [lookupHex, hb]
      · simp [lookupHex, hb, ih]

lemma containsHex_append_single (m : List (Hex × ℕ)) (a : Hex) (n : ℕ) (h : Hex) :
    containsHex (m ++ [(a, n)]) h = (containsHex m h || decide (h = a)) := by
  rw [containsHex, containsHex, lookupHex_append]
  cases hm : lookupHex m h with
  | none =>
      by_cases hh : a = h
      · subst hh
        simp [lookupHex, Option.or]
      · simp [lookupHex, Option.or, hh, Ne.symm hh]
  | some v => simp [Option.or]

lemma lookupHex_append_left {m1 : List (Hex × ℕ)} (m2 : List (Hex × ℕ)) {h : Hex} {v : ℕ}
    (hv : lookupHex m1 h = some v) : lookupHex (m1 ++ m2) h = some v := by
  rw [lookupHex_append, hv]
  rfl

lemma fold1_contains (hexcell : Hex → ℕ) (cell : ℕ) :
    ∀ (ds : List Hex) (st : NeighborhoodGraph × List (Hex × ℕ)) (h : Hex),
    containsHex ((ds.foldl
      (fun (st : NeighborhoodGraph × List (Hex × ℕ)) neighbor =>
        if cell = hexcell neighbor then
          if containsHex st.2 neighbor then st
          else
            let q := st.1.addNode
            (q.1, st.2 ++ [(neighbor, q.2)])
        else st) st)).2 h =
    (containsHex st.2 h || ds.any (fun d => decide (h = d) && decide (cell = hexcell d)))
  | [], st, h => by simp
  | d :: t, st, h => by
      rw [List.foldl_cons, List.any_cons]
      dsimp only
      by_cases hc : cell = hexcell d
      · rw [if_pos hc]
        by_cases hm : containsHex st.2 d
        · rw [if_pos hm, fold1_contains hexcell cell t st h]
          by_cases hd : h = d
          · subst hd
            simp [hm]
          · simp [hd]
        · rw [if_neg hm,
            fold1_contains hexcell cell t ((st.1.addNode).1, st.2 ++ [(d, (st.1.addNode).2)]) h]
          simp [containsHex_append_single, hc, Bool.or_assoc]
      · rw [if_neg hc, fold1_contains hexcell cell t st h]
        simp [hc]

lemma fold1_lookup (hexcell : Hex → ℕ) (cell : ℕ) (x : Hex) (v : ℕ) :
    ∀ (ds : List Hex) (st : NeighborhoodGraph × List (Hex × ℕ)),
    lookupHex st.2 x = some v →
    lookupHex ((ds.foldl
      (fun (st : NeighborhoodGraph × List (Hex × ℕ)) neighbor =>
        if cell = hexcell neighbor then
          if containsHex st.2 neighbor then st
          else
            let q := st.1.addNode
            (q.1, st.2 ++ [(neighbor, q.2)])
        else st) st)).2 x = some v
  | [], _, hv => hv
  | d :: t, st, hv => by
      rw [List.foldl_cons]
      dsimp only
      by_cases hc : cell = hexcell d
      · rw [if_pos hc]
        by_cases hm : containsHex st.2 d
        · rw [if_pos hm]
          exact fold1_lookup hexcell cell x v t st hv
        · rw [if_neg hm]
          exact fold1_lookup hexcell cell x v t _ (lookupHex_append_left _ hv)
      · rw [if_neg hc]
        exact fold1_lookup hexcell cell x v t st hv

/-- A region map for the C2 counterexample: the root `(0,0)` and the chain
`(1,0)`, `(2,0)` are in region 1; everything else in region 0.  Note `(2,0)`
is a same-region neighbor of the retained neighbor `(1,0)` (a 2-hop
neighbor of the root) but not a neighbor of the root itself. -/
def c2cell (h : Hex) : ℕ :=
  if h = (0, 0) ∨ h = (1, 0) ∨ h = (2, 0) then 1 else 0

/-- **C2** (counterexample): at root `(0,0)` with region map `c2cell`, the
constructed subgraph's node map contains the removed voxel `(0,0)` itself
(contradicting "does not contain the removed voxel v"), does not contain the
2-hop same-region neighbor `(2,0)` (contradicting the claimed 2-hop node
set), and maps the root to node index 0 — the index `hex_isarticulation`
roots the DFS at — so the search is rooted at the removed voxel's own node,
not at a retained neighbor. -/
theorem construct_hex_subgraph_not_two_hop :
    containsHex (construct_hex_subgraph (0, 0) c2cell 1).2 (0, 0) = true ∧
    containsHex (construct_hex_subgraph (0, 0) c2cell 1).2 (2, 0) = false ∧
    (2, 0) ∈ sameRegionNeighbors (1, 0) c2cell 1 ∧
    lookupHex (construct_hex_subgraph (0, 0) c2cell 1).2 (0, 0) = some 0 :=
  ⟨by decide, by decide, by decide, by decide⟩

/-- **C2** (amended): for every query, the constructed local subgraph's node
map holds exactly the removed voxel `v` itself plus `v`'s same-region planar
neighbors — a 1-hop neighborhood including `v`, not a 2-hop neighborhood
excluding it — `v` is node 0, and the articulation DFS is rooted at that
node 0 of `v`, not at a retained neighbor. -/
theorem construct_hex_subgraph_nodes (root : Hex) (hexcell : Hex → ℕ) (cell : ℕ) :
    (∀ h : Hex, containsHex (construct_hex_subgraph root hexcell cell).2 h = true ↔
      (h = root ∨ (h ∈ allNeighbors root ∧ cell = hexcell h))) ∧
    lookupHex (construct_hex_subgraph root hexcell cell).2 root = some 0 ∧
    hex_isarticulation root hexcell cell =
      (is_articulation_dfs (construct_hex_subgraph root hexcell cell).1
        ((construct_hex_subgraph root hexcell cell).1.numNodes + 1) 0 none 0 []).1 := by
  have hkey : (construct_hex_subgraph root hexcell cell).2 =
      ((allNeighbors root).foldl
        (fun (st : NeighborhoodGraph × List (Hex × ℕ)) neighbor =>
          if cell = hexcell neighbor then
            if containsHex st.2 neighbor then st
            else
              let q := st.1.addNode
              (q.1, st.2 ++ [(neighbor, q.2)])
          else st) (NeighborhoodGraph.mk 1 [], [(root, 0)])).2 := rfl
  have hlook : lookupHex (construct_hex_subgraph root hexcell cell).2 root = some 0 := by
    rw [hkey]
    exact fold1_lookup hexcell cell root 0 _ _ (by simp [lookupHex])
  refine ⟨?_, hlook, ?_⟩
  · intro h
    rw [hkey, fold1_contains]
    by_cases hr : root = h
    · simp [containsHex, lookupHex, hr]
    · simp only [containsHex, lookupHex, if_neg hr, Option.isSome_none, Bool.false_or,
        List.any_eq_true, Bool.and_eq_true, decide_eq_true_eq]
      constructor
      · rintro ⟨d, hdL, hhd, hcd⟩
        subst hhd
        exact Or.inr ⟨hdL, hcd⟩
      · rintro (hhr | ⟨hmem, hcell⟩)
        · exact absurd hhr.symm hr
        · exact ⟨h, hmem, rfl, hcell⟩
  · have hdef : hex_isarticulation root hexcell cell =
        (is_articulation_dfs (construct_hex_subgraph root hexcell cell).1
          ((construct_hex_subgraph root hexcell cell).1.numNodes + 1)
          ((lookupHex (construct_hex_subgraph root hexcell cell).2 root).getD 0)
          none 0 []).1 := rfl
    rw [hdef, hlook]
    rfl

/-! ### Concrete-input witnesses for the hypothesis-carrying theorems -/

/-- A region map with a single same-region planar neighbor of the root
`(0,0)` (only `(1,0)` matches). -/
def c1cell (h : Hex) : ℕ :=
  if h = (0, 0) ∨ h = (1, 0) then 1 else 0

theorem hex_isarticulation_iff_disconnects_witness :
    c1cell (0, 0) = 1 ∧
    (sameRegionNeighbors (0, 0) c1cell 1).length ≤ 1 ∧
    hex_isarticulation (0, 0) c1cell 1 = false :=
  ⟨by decide, by decide,
    (hex_isarticulation_iff_disconnects (0, 0) c1cell 1 (by decide)).2 (by decide)⟩

theorem cell_polygon_corner_degree_witness :
    ([Cube.mk 0 0 0] : List Cube).Nodup ∧
    (∃ e ∈ collectEdges [Cube.mk 0 0 0],
      e.1 = 0 ∧ (e.2.1 = ((0 : ℤ), (0 : ℤ)) ∨ e.2.2 = ((0 : ℤ), (0 : ℤ)))) ∧
    ((adjacent_edges ((List.insertionSort edgeLe (collectEdges [Cube.mk 0 0 0])).filter
        (fun e => decide (e.1 = 0))) (0, 0)).length = 2 ∨
     (adjacent_edges ((List.insertionSort edgeLe (collectEdges [Cube.mk 0 0 0])).filter
        (fun e => decide (e.1 = 0))) (0, 0)).length = 4) :=
  ⟨by decide, by decide,
    cell_polygon_corner_degree [Cube.mk 0 0 0] (by decide) 0 (0, 0) (by decide)⟩

theorem simplify_polygon_idempotent_witness :
    (([(0, 0), (1, 0), (2, 0), (2, 1), (1, 1), (0, 1), (0, 0)] : List Pt).head? =
      ([(0, 0), (1, 0), (2, 0), (2, 1), (1, 1), (0, 1), (0, 0)] : List Pt).getLast?) ∧
    UnitSteps ([(0, 0), (1, 0), (2, 0), (2, 1), (1, 1), (0, 1), (0, 0)] : List Pt) ∧
    (simplify_polygon (simplify_polygon
        [(0, 0), (1, 0), (2, 0), (2, 1), (1, 1), (0, 1), (0, 0)]) =
      simplify_polygon [(0, 0), (1, 0), (2, 0), (2, 1), (1, 1), (0, 1), (0, 0)] ∧
     List.Sublist
       (simplify_polygon [(0, 0), (1, 0), (2, 0), (2, 1), (1, 1), (0, 1), (0, 0)])
       [(0, 0), (1, 0), (2, 0), (2, 1), (1, 1), (0, 1), (0, 0)]) := by
  have hu : UnitSteps ([(0, 0), (1, 0), (2, 0), (2, 1), (1, 1), (0, 1), (0, 0)] : List Pt) := by
    norm_num [UnitSteps]
  exact ⟨by decide, hu, simplify_polygon_idempotent _ (by decide) hu⟩

theorem antialias_polygon_claims_witness :
    NoStair ([(0, 0), (1, 0), (2, 0), (3, 0), (4, 0), (5, 0), (6, 0)] : List Pt) ∧
    antialias_polygon [(0, 0), (1, 0), (2, 0), (3, 0), (4, 0), (5, 0), (6, 0)] =
      [(0, 0), (1, 0), (2, 0), (3, 0), (4, 0), (5, 0), (6, 0)] := by
  have hn : NoStair ([(0, 0), (1, 0), (2, 0), (3, 0), (4, 0), (5, 0), (6, 0)] : List Pt) := by
    norm_num [NoStair, stairStep]
  exact ⟨hn, antialias_polygon_claims.1 _ hn⟩

theorem mainSchedule_spec_witness :
    ([150, 150, 300] : List ℕ) ≠ [] ∧
    ∃ evs, mainSchedule [150, 150, 300] 100 = some evs ∧
      evs.countP (fun e => isDouble e) = 2 ∧
      evs.filterMap runLength = [150, 150, 200, 100] := by
  obtain ⟨evs, h1, h2, h3, -, -⟩ :=
    mainSchedule_spec [150, 150, 300] 100 (by decide) (by decide)
  exact ⟨by decide, evs, h1, h2, h3⟩

theorem mainSchedule_guard_subtraction_witness :
    ¬ (100 : ℕ) > ([150, 300] : List ℕ).getLast (by decide) ∧
    checkedSub 300 100 = some 200 ∧
    ∃ evs, mainSchedule [150, 300] 100 = some evs ∧
      evs.drop (evs.length - 2) =
        [SamplerEvent.run 200 false, SamplerEvent.run 100 true] := by
  have h := mainSchedule_guard_subtraction [150, 300] 100 (by decide) (by decide)
  exact ⟨by decide, h.1, h.2.2.2⟩

theorem cell_voxels_to_polygons_layers_witness :
    (∀ v ∈ ([Cube.mk 0 0 0] : List Cube), -2147483648 ≤ v.k ∧ v.k ≤ 2147483646) ∧
    (cell_voxels_to_polygons [Cube.mk 0 0 0]).map Prod.fst =
      intRange (kminOf [Cube.mk 0 0 0]) (kmaxOf [Cube.mk 0 0 0]) := by
  have h := cell_voxels_to_polygons_layers [Cube.mk 0 0 0] (by decide)
  exact ⟨by decide, h.1⟩

end Proseg
